import Mathlib

/-!
Verification of the coalescent-simulation pipeline notebook (`simulate.ipynb`).

The development shallowly embeds the pieces of the notebook that the claims
are about:

* `produce_subseqs` — the sliding-window extractor (window index records);
* `Coalseq._get_demography` — the demographic model builder over a species tree;
* `Coalseq.write_trees` — the per-interval length table it persists;
* `Coalseq.build_seqs` — the per-fragment row ordering and the header parse.

Python integers are embedded as `Int`, Python floats as `Rat` (the quantities
involved — node heights, interval lengths, times — are ordinary finite decimal
values in the source), Python lists as `List`.
-/

/-! ## Window extractor: `produce_subseqs` -/

/-- One record of the window index written by `produce_subseqs`: window number
`num`, start site `startidx`, end site `endidx` (names follow the source).
Each record also names the per-window file written by `write_subseq`. -/
structure Window where
  num : Int
  startidx : Int
  endidx : Int
deriving DecidableEq

/-- The `while startidx <= startlimit` loop of `produce_subseqs`, together with
the trailing remainder branch `if startidx < total_len`.  Python's `while` is
embedded with an explicit fuel argument bounding the number of iterations; the
fuel supplied by `produce_subseqs` below is enough for the loop to run to its
natural end whenever `slide_interval ≥ 1`, since each pass advances `startidx`
by `slide_interval` (for `slide_interval ≤ 0` the source loops forever). -/
def subseqLoop (window_size slide_interval total_len startlimit : Int) :
    Nat → Int → Int → List Window
  | 0, _, _ => []
  | fuel + 1, startidx, num =>
    if startidx ≤ startlimit then
      ⟨num, startidx, startidx + window_size⟩ ::
        subseqLoop window_size slide_interval total_len startlimit fuel
          (startidx + slide_interval) (num + 1)
    else if startidx < total_len then
      [⟨num, startlimit, total_len⟩]
    else []

/-- Embedding of `produce_subseqs(window_size, slide_interval, full_seq_path,
directory_name)`: `total_len` is the alignment's site count
(`seqs['alignment'].shape[1]`), `startlimit = total_len - window_size`, and the
result lists, in emission order, the windows written to disk and recorded in
the `_index` table (`nums`, `starts`, `ends` columns). -/
def produce_subseqs (window_size slide_interval total_len : Int) : List Window :=
  subseqLoop window_size slide_interval total_len (total_len - window_size)
    ((total_len - window_size).toNat + 2) 0 0

/-- Unfolding equation for a spent unit of fuel. -/
theorem subseqLoop_succ (w s L lim : Int) (fuel : Nat) (st n : Int) :
    subseqLoop w s L lim (fuel + 1) st n =
      if st ≤ lim then
        ⟨n, st, st + w⟩ :: subseqLoop w s L lim fuel (st + s) (n + 1)
      else if st < L then [⟨n, lim, L⟩]
      else [] := rfl

/-- Every window emitted by the loop has width `w`, a nonnegative start and an
end within the alignment, provided the window fits (`0 ≤ L - w`), the slide is
nonnegative and the loop starts at a nonnegative offset. -/
theorem subseqLoop_mem_width (w s L : Int) (hs : 0 ≤ s) (hlim : 0 ≤ L - w) :
    ∀ (fuel : Nat) (st n : Int), 0 ≤ st →
      ∀ win ∈ subseqLoop w s L (L - w) fuel st n,
        win.endidx - win.startidx = w ∧ 0 ≤ win.startidx ∧ win.endidx ≤ L := by
  intro fuel
  induction fuel with
  | zero => intro st n _ win hwin; simp [subseqLoop] at hwin
  | succ f ih =>
    intro st n hst win hwin
    rw [subseqLoop_succ] at hwin
    by_cases hg : st ≤ L - w
    · rw [if_pos hg] at hwin
      rcases List.mem_cons.mp hwin with hhead | htail
      · subst hhead; refine ⟨by dsimp; omega, hst, by dsimp; omega⟩
      · exact ih (st + s) (n + 1) (by omega) win htail
    · rw [if_neg hg] at hwin
      by_cases hr : st < L
      · rw [if_pos hr] at hwin
        rcases List.mem_singleton.mp hwin with rfl
        refine ⟨by dsimp; omega, hlim, le_refl L⟩
      · rw [if_neg hr] at hwin; simp at hwin

/-- C10: every window that `produce_subseqs` emits — the remainder window
included, which spans `startlimit = total_len - window_size` to `total_len` —
has width exactly `window_size`; under the precondition
`window_size ≤ total_len` every written slice lies inside the alignment, so no
window strictly shorter than `window_size` is ever written. -/
theorem produce_subseqs_window_width (w s L : Int) (hw : w ≤ L) (hs : 1 ≤ s) :
    ∀ win ∈ produce_subseqs w s L,
      win.endidx - win.startidx = w ∧ 0 ≤ win.startidx ∧ win.endidx ≤ L := by
  intro win hwin
  exact subseqLoop_mem_width w s L (by omega) (by omega) _ 0 0 le_rfl win hwin

/-- C10 witness: concrete instance `w = 2`, `s = 1`, `L = 3`. -/
theorem produce_subseqs_window_width_witness :
    ((2:Int) ≤ 3) ∧ (1 ≤ (1:Int)) ∧
      ∀ win ∈ produce_subseqs 2 1 3,
        win.endidx - win.startidx = 2 ∧ 0 ≤ win.startidx ∧ win.endidx ≤ 3 :=
  ⟨by decide, by decide, produce_subseqs_window_width 2 1 3 (by decide) (by decide)⟩

/-- C3: with `total_len = 1000`, `window_size = 400`, `slide_interval = 300`
exactly the four windows `(0,0,400)`, `(1,300,700)`, `(2,600,1000)`,
`(3,600,1000)` are emitted in that order: the remainder branch reuses
`startlimit` and duplicates window 2's range. -/
theorem produce_subseqs_scenario_1000_400_300 :
    produce_subseqs 400 300 1000 =
      [⟨0, 0, 400⟩, ⟨1, 300, 700⟩, ⟨2, 600, 1000⟩, ⟨3, 600, 1000⟩] := by decide

/-- C4 (behaviour at the failing input): with `window_size = 15` strictly larger
than `total_len = 10` the source raises no error at all — `startlimit` is `-5`,
the while loop is skipped, and the remainder branch writes one window file whose
recorded start offset is the negative `startlimit` (numpy interprets the
negative slice bound by wrapping). -/
theorem produce_subseqs_oversize_window_no_error :
    produce_subseqs 15 3 10 = [⟨0, -5, 10⟩] := by decide

/-- C5 counterexample: at `total_len = window_size = 1000`, `slide_interval =
300` (which is `≥ 1`), two windows are emitted — the remainder branch fires
because `startidx = 300 < 1000` — so the extractor does not yield exactly one
window as claimed. -/
theorem produce_subseqs_boundary_counterexample :
    produce_subseqs 1000 300 1000 = [⟨0, 0, 1000⟩, ⟨1, 0, 1000⟩] ∧
      (produce_subseqs 1000 300 1000).length ≠ 1 := by decide

/-- C5 amended: with `window_size = total_len` the first emitted window is
`(0, 0, total_len)`, and it is the only window precisely when
`slide_interval ≥ total_len`; otherwise the remainder branch emits a second,
duplicate window `(1, 0, total_len)`. -/
theorem produce_subseqs_boundary (total_len slide_interval : Int)
    (hs : 1 ≤ slide_interval) :
    produce_subseqs total_len slide_interval total_len =
      if slide_interval < total_len then
        [⟨0, 0, total_len⟩, ⟨1, 0, total_len⟩]
      else [⟨0, 0, total_len⟩] := by
  have h0 : total_len - total_len = 0 := sub_self total_len
  rw [produce_subseqs, h0]
  rw [show (Int.toNat 0 + 2) = 1 + 1 from rfl]
  rw [subseqLoop_succ, if_pos le_rfl, subseqLoop_succ,
    if_neg (by omega : ¬ (0 + slide_interval ≤ 0))]
  split_ifs with h1 h2 h3 <;> simp_all

/-- C5 amended witness: `total_len = 1000`, `slide_interval = 300`. -/
theorem produce_subseqs_boundary_witness :
    (1 ≤ (300:Int)) ∧
      produce_subseqs 1000 300 1000 =
        (if (300:Int) < 1000 then [⟨0, 0, 1000⟩, ⟨1, 0, 1000⟩]
         else [⟨0, 0, 1000⟩]) :=
  ⟨by decide, produce_subseqs_boundary 1000 300 (by decide)⟩

/-- Coverage of the loop: if the slide is positive and no larger than the
window, every site from the current `startidx` up to `total_len` lies in some
emitted window, provided enough fuel remains. -/
theorem subseqLoop_covers (w s L : Int) (hs1 : 1 ≤ s) (hsw : s ≤ w) :
    ∀ (fuel : Nat) (st n : Int),
      (L - w - st).toNat + 2 ≤ fuel →
      ∀ i : Int, st ≤ i → i < L →
        ∃ win ∈ subseqLoop w s L (L - w) fuel st n,
          win.startidx ≤ i ∧ i < win.endidx := by
  intro fuel
  induction fuel with
  | zero => intro st n hf; exact absurd hf (by omega)
  | succ f ih =>
    intro st n hf i hi1 hi2
    rw [subseqLoop_succ]
    by_cases hg : st ≤ L - w
    · rw [if_pos hg]
      by_cases hcur : i < st + w
      · exact ⟨⟨n, st, st + w⟩, List.mem_cons_self _ _, hi1, hcur⟩
      · push_neg at hcur
        by_cases hnext : st + s ≤ L - w
        · obtain ⟨win, hmem, hcov⟩ :=
            ih (st + s) (n + 1) (by omega) i (by omega) hi2
          exact ⟨win, List.mem_cons_of_mem _ hmem, hcov⟩
        · obtain ⟨f', rfl⟩ : ∃ f', f = f' + 1 := ⟨f - 1, by omega⟩
          rw [subseqLoop_succ, if_neg (by omega), if_pos (by omega : st + s < L)]
          refine ⟨⟨n + 1, L - w, L⟩, ?_, by dsimp; omega⟩
          exact List.mem_cons_of_mem _ (List.mem_singleton_self _)
    · rw [if_neg hg, if_pos (by omega : st < L)]
      exact ⟨⟨n, L - w, L⟩, List.mem_singleton_self _, by dsimp; omega⟩

/-- Last emitted window of the loop: with positive slide at most the window
size and the loop not yet past `startlimit`, the loop's final window ends
exactly at `total_len`. -/
theorem subseqLoop_getLast (w s L : Int) (hs1 : 1 ≤ s) (hsw : s ≤ w) :
    ∀ (fuel : Nat) (st n : Int),
      (L - w - st).toNat + 2 ≤ fuel → st ≤ L - w →
      ∃ win, (subseqLoop w s L (L - w) fuel st n).getLast? = some win ∧
        win.endidx = L := by
  intro fuel
  induction fuel with
  | zero => intro st n hf _; exact absurd hf (by omega)
  | succ f ih =>
    intro st n hf hst
    rw [subseqLoop_succ, if_pos hst]
    by_cases hnext : st + s ≤ L - w
    · obtain ⟨win, hlast, hend⟩ := ih (st + s) (n + 1) (by omega) hnext
      refine ⟨win, ?_, hend⟩
      cases htl : subseqLoop w s L (L - w) f (st + s) (n + 1) with
      | nil => rw [htl] at hlast; simp at hlast
      | cons a as =>
        rw [htl] at hlast
        rw [List.getLast?_cons_cons]
        exact hlast
    · obtain ⟨f', rfl⟩ : ∃ f', f = f' + 1 := ⟨f - 1, by omega⟩
      rw [subseqLoop_succ, if_neg (by omega)]
      by_cases hrem : st + s < L
      · rw [if_pos hrem]
        exact ⟨⟨n + 1, L - w, L⟩, by rw [List.getLast?_cons_cons]; simp, rfl⟩
      · rw [if_neg hrem]
        exact ⟨⟨n, st, st + w⟩, by simp, by dsimp; omega⟩

/-- C1 counterexample: at `total_len = 10`, `window_size = 2 ≤ 10`,
`slide_interval = 5 ≥ 1` the emitted windows are `(0,0,2)` and `(1,5,7)`:
site `3` is covered by no window and the final window ends at `7 ≠ 10`, so
coverage fails for parameters the claim quantifies over. -/
theorem produce_subseqs_coverage_counterexample :
    ((2:Int) ≤ 10) ∧ (1 ≤ (5:Int)) ∧
      ¬ ((∀ i : Int, 0 ≤ i → i < 10 →
            ∃ win ∈ produce_subseqs 2 5 10, win.startidx ≤ i ∧ i < win.endidx) ∧
         (∃ win, (produce_subseqs 2 5 10).getLast? = some win ∧
            win.endidx = 10)) := by
  refine ⟨by decide, by decide, fun h => ?_⟩
  have h3 := h.1 3 (by decide) (by decide)
  revert h3
  decide

/-- C1 amended: under the additional hypothesis `slide_interval ≤ window_size`
(forced by the counterexample: a slide larger than the window leaves gaps and
can end short of `total_len`), the union of the emitted windows covers every
site of `[0, total_len)` and the final emitted window ends exactly at
`total_len`. -/
theorem produce_subseqs_coverage (w s L : Int) (hs1 : 1 ≤ s) (hsw : s ≤ w)
    (hwL : w ≤ L) :
    (∀ i : Int, 0 ≤ i → i < L →
      ∃ win ∈ produce_subseqs w s L, win.startidx ≤ i ∧ i < win.endidx) ∧
    (∃ win, (produce_subseqs w s L).getLast? = some win ∧ win.endidx = L) := by
  constructor
  · intro i hi1 hi2
    exact subseqLoop_covers w s L hs1 hsw _ 0 0 (by omega) i hi1 hi2
  · exact subseqLoop_getLast w s L hs1 hsw _ 0 0 (by omega) (by omega)

/-- C1 amended witness: `w = 4`, `s = 3`, `L = 10`. -/
theorem produce_subseqs_coverage_witness :
    (1 ≤ (3:Int)) ∧ ((3:Int) ≤ 4) ∧ ((4:Int) ≤ 10) ∧
      ((∀ i : Int, 0 ≤ i → i < 10 →
          ∃ win ∈ produce_subseqs 4 3 10, win.startidx ≤ i ∧ i < win.endidx) ∧
       (∃ win, (produce_subseqs 4 3 10).getLast? = some win ∧
          win.endidx = 10)) :=
  ⟨by decide, by decide, by decide,
    produce_subseqs_coverage 4 3 10 (by decide) (by decide) (by decide)⟩

/-! ## Demographic model builder: `Coalseq._get_demography`

The species tree is the `toytree`/`ete3` tree object: every node has an
integer index `idx`, a rational `height` (floats in the source; all values
involved are finite decimals) and a list of children (empty for leaves). -/

/-- A species-tree node. -/
inductive PTree where
  | node (idx : Nat) (height : Rat) (children : List PTree)

/-- The node's `idx` attribute. -/
def PTree.idx : PTree → Nat
  | .node i _ _ => i

/-- The node's `height` attribute. -/
def PTree.height : PTree → Rat
  | .node _ h _ => h

/-- The node's `children` attribute. -/
def PTree.children : PTree → List PTree
  | .node _ _ cs => cs

mutual
/-- `node.get_descendants()`: every strict descendant of the node. -/
def PTree.descendants : PTree → List PTree
  | .node _ _ cs => PTree.descList cs

/-- Descendant collection over a list of subtrees: each subtree together with
its own strict descendants. -/
def PTree.descList : List PTree → List PTree
  | [] => []
  | c :: cs => c :: (PTree.descendants c ++ PTree.descList cs)
end

mutual
/-- Number of nodes of the tree. -/
def PTree.size : PTree → Nat
  | .node _ _ cs => 1 + PTree.sizeList cs

/-- Total number of nodes over a list of trees. -/
def PTree.sizeList : List PTree → Nat
  | [] => 0
  | c :: cs => PTree.size c + PTree.sizeList cs
end

mutual
/-- Number of leaves (`len(self.tree)`, the `ntips` attribute). -/
def PTree.nleaves : PTree → Nat
  | .node _ _ [] => 1
  | .node _ _ (c :: cs) => PTree.nleavesList (c :: cs)

/-- Total number of leaves over a list of trees. -/
def PTree.nleavesList : List PTree → Nat
  | [] => 0
  | c :: cs => PTree.nleaves c + PTree.nleavesList cs
end

mutual
/-- Count of nodes of the tree satisfying `p`. -/
def PTree.countNodes (p : PTree → Bool) : PTree → Nat
  | .node i h cs =>
    (if p (.node i h cs) then 1 else 0) + PTree.countNodesList p cs

/-- Total count of nodes satisfying `p` over a list of trees. -/
def PTree.countNodesList (p : PTree → Bool) : List PTree → Nat
  | [] => 0
  | c :: cs => PTree.countNodes p c + PTree.countNodesList p cs
end

mutual
/-- Validity of an ultrametric species tree: every leaf sits at height `0` and
every internal node is at least as high as each of its children (time flows
from the leaves to the root). -/
def PTree.valid : PTree → Bool
  | .node _ h cs =>
    if cs.isEmpty then decide (h = 0)
    else PTree.validList h cs

/-- Validity of each subtree in a list, all of whose roots must sit at height
at most `h`. -/
def PTree.validList : Rat → List PTree → Bool
  | _, [] => true
  | h, c :: cs => (decide (PTree.height c ≤ h) && PTree.valid c) && PTree.validList h cs
end

mutual
/-- A strictly bifurcating tree: every internal node has exactly two
children. -/
def PTree.bifurcating : PTree → Bool
  | .node _ _ cs =>
    (cs.isEmpty || decide (cs.length = 2)) && PTree.bifurcatingList cs

/-- Strict bifurcation for every tree of a list. -/
def PTree.bifurcatingList : List PTree → Bool
  | [] => true
  | c :: cs => PTree.bifurcating c && PTree.bifurcatingList cs
end

/-- Python's `min` over a nonempty list of naturals (the default value for the
empty list is never used: every call site guards nonemptiness, exactly as the
source only calls `min` on nonempty lists). -/
def pyMin : List Nat → Nat
  | [] => 0
  | x :: xs => xs.foldl Nat.min x

/-- Python's `max` over a nonempty list of naturals (same remark as for
`pyMin`). -/
def pyMax : List Nat → Nat
  | [] => 0
  | x :: xs => xs.foldl Nat.max x

/-- The scratch value `node._schild` computed by the first loop of
`_get_demography`: for a node with children, the minimum `idx` over all of its
strict descendants (`min([i.idx for i in node.get_descendants()])`); for a
leaf, its own `idx`. -/
def PTree.schild (t : PTree) : Nat :=
  if t.children.isEmpty then t.idx
  else pyMin ((PTree.descendants t).map PTree.idx)

/-- Level-order traversal, the default strategy of `ete3`'s
`TreeNode.traverse()` used by both loops of `_get_demography`: emit the
current frontier, then recurse on the concatenation of all its children.  The
fuel argument bounds the number of levels; `PTree.size` (used by
`PTree.traverse`) always suffices, since each level holds at least one node. -/
def PTree.bfs : Nat → List PTree → List PTree
  | 0, _ => []
  | _ + 1, [] => []
  | fuel + 1, f :: fs =>
    (f :: fs) ++ PTree.bfs fuel ((f :: fs).flatMap PTree.children)

/-- `self.tree.treenode.traverse()` starting from the root. -/
def PTree.traverse (t : PTree) : List PTree := PTree.bfs (PTree.size t) [t]

/-- An `ms.MassMigration(time, source, dest)` demographic event. -/
structure MassMigration where
  time : Rat
  source : Nat
  dest : Nat
deriving DecidableEq

/-- The divergence event `_get_demography` adds for one internal node:
`dest = min` and `source = max` of the children's `_schild` values, at
`time = node.height * 2. * self._Ne`. -/
def Coalseq.eventOfNode (Ne : Rat) (n : PTree) : MassMigration :=
  { time := PTree.height n * 2 * Ne
    source := pyMax ((PTree.children n).map PTree.schild)
    dest := pyMin ((PTree.children n).map PTree.schild) }

/-- Embedding of `Coalseq._get_demography`.  The source walks every node in
traversal order and, for each node with children, adds one `MassMigration` to
the Python set `demog`; the `msprime` event objects carry no structural
equality, so every `add` inserts a fresh element and the set holds one event
per internal node, modelled as `filter` then `map` over the traversal.
`sorted(list(demog), key=lambda x: x.time)` is a stable sort by time, modelled
by `List.insertionSort` on the time order. -/
def Coalseq.get_demography (t : PTree) (Ne : Rat) : List MassMigration :=
  List.insertionSort (fun a b => a.time ≤ b.time)
    (((PTree.traverse t).filter (fun n => !(PTree.children n).isEmpty)).map
      (Coalseq.eventOfNode Ne))

/-- Every tree has at least one node. -/
theorem PTree.size_pos (t : PTree) : 1 ≤ PTree.size t := by
  cases t with
  | node i h cs => simp [PTree.size]

/-- `sizeList` distributes over append. -/
theorem PTree.sizeList_append (a b : List PTree) :
    PTree.sizeList (a ++ b) = PTree.sizeList a + PTree.sizeList b := by
  induction a with
  | nil => simp [PTree.sizeList]
  | cons c cs ih => simp [PTree.sizeList, ih]; ring

/-- A list of trees with no nodes is empty. -/
theorem PTree.sizeList_eq_zero {l : List PTree} (h : PTree.sizeList l = 0) :
    l = [] := by
  cases l with
  | nil => rfl
  | cons c cs => have := PTree.size_pos c; simp [PTree.sizeList] at h; omega

/-- Passing to all children drops exactly one node per tree of the list. -/
theorem PTree.sizeList_flatMap (l : List PTree) :
    PTree.sizeList (l.flatMap PTree.children) + l.length = PTree.sizeList l := by
  induction l with
  | nil => simp [PTree.sizeList]
  | cons c cs ih =>
    cases c with
    | node i h ccs =>
      simp only [List.flatMap_cons, PTree.sizeList_append, PTree.sizeList,
        PTree.children, List.length_cons, PTree.size] at *
      omega

/-- `countNodesList` distributes over append. -/
theorem PTree.countNodesList_append (p : PTree → Bool) (a b : List PTree) :
    PTree.countNodesList p (a ++ b) =
      PTree.countNodesList p a + PTree.countNodesList p b := by
  induction a with
  | nil => simp [PTree.countNodesList]
  | cons c cs ih => simp [PTree.countNodesList, ih]; ring

/-- Counting over whole trees splits into the shallow count over the roots
plus the count over all their children. -/
theorem PTree.countNodesList_eq (p : PTree → Bool) (l : List PTree) :
    PTree.countNodesList p l =
      List.countP p l + PTree.countNodesList p (l.flatMap PTree.children) := by
  induction l with
  | nil => simp [PTree.countNodesList]
  | cons c cs ih =>
    cases c with
    | node i h ccs =>
      simp only [PTree.countNodesList, List.flatMap_cons, List.countP_cons,
        PTree.countNodesList_append, PTree.countNodes, PTree.children, ih]
      omega

/-- With enough fuel, the level-order traversal visits each node of each tree
of the frontier exactly once: counting a predicate over the traversal equals
the recursive count over the trees. -/
theorem PTree.bfs_countP (p : PTree → Bool) :
    ∀ (fuel : Nat) (l : List PTree), PTree.sizeList l ≤ fuel →
      List.countP p (PTree.bfs fuel l) = PTree.countNodesList p l := by
  intro fuel
  induction fuel with
  | zero =>
    intro l hl
    have hnil : l = [] := PTree.sizeList_eq_zero (by omega)
    subst hnil
    simp [PTree.bfs, PTree.countNodesList]
  | succ f ih =>
    intro l hl
    cases l with
    | nil => simp [PTree.bfs, PTree.countNodesList]
    | cons c cs =>
      have hsize := PTree.sizeList_flatMap (c :: cs)
      have hle : PTree.sizeList ((c :: cs).flatMap PTree.children) ≤ f := by
        simp only [List.length_cons] at hsize
        simp only [PTree.sizeList] at hl hsize ⊢
        omega
      show List.countP p ((c :: cs) ++ PTree.bfs f ((c :: cs).flatMap PTree.children)) =
        PTree.countNodesList p (c :: cs)
      rw [List.countP_append, ih _ hle, ← PTree.countNodesList_eq]

/-- Counting over `traverse` is the recursive node count. -/
theorem PTree.traverse_countP (p : PTree → Bool) (t : PTree) :
    List.countP p (PTree.traverse t) = PTree.countNodes p t := by
  have h : PTree.sizeList [t] ≤ PTree.size t := by simp [PTree.sizeList]
  have := PTree.bfs_countP p (PTree.size t) [t] h
  simpa [PTree.traverse, PTree.countNodesList] using this

/-- Strong induction over trees by node count. -/
theorem PTree.strong_ind {motive : PTree → Prop}
    (h : ∀ t, (∀ c, PTree.size c < PTree.size t → motive c) → motive t)
    (t : PTree) : motive t := by
  have key : ∀ (n : Nat) (t : PTree), PTree.size t ≤ n → motive t := by
    intro n
    induction n with
    | zero => intro t ht; have := PTree.size_pos t; omega
    | succ n ih => intro t ht; exact h t (fun c hc => ih c (by omega))
  exact key (PTree.size t) t le_rfl

/-- A member of a list of trees contributes at most the whole list's size. -/
theorem PTree.size_le_sizeList_of_mem {c : PTree} {l : List PTree}
    (hc : c ∈ l) : PTree.size c ≤ PTree.sizeList l := by
  induction l with
  | nil => simp at hc
  | cons a as ih =>
    rcases List.mem_cons.mp hc with rfl | h
    · simp [PTree.sizeList]
    · have := ih h; simp [PTree.sizeList]; omega

/-- Children are strictly smaller than their parent. -/
theorem PTree.size_children_lt {c : PTree} {t : PTree}
    (hc : c ∈ PTree.children t) : PTree.size c < PTree.size t := by
  cases t with
  | node i h cs =>
    have := PTree.size_le_sizeList_of_mem (l := cs) (by simpa [PTree.children] using hc)
    simp [PTree.size]; omega

/-- In a strictly bifurcating tree the internal nodes number one fewer than
the leaves. -/
theorem PTree.internal_count (t : PTree)
    (hbif : PTree.bifurcating t = true) :
    PTree.countNodes (fun n => !(PTree.children n).isEmpty) t + 1 =
      PTree.nleaves t := by
  induction t using PTree.strong_ind with
  | _ t ih =>
    cases t with
    | node i h cs =>
      rw [PTree.bifurcating, Bool.and_eq_true, Bool.or_eq_true] at hbif
      obtain ⟨hlen, hrest⟩ := hbif
      rcases hlen with hempty | hlen2
      · rw [List.isEmpty_iff] at hempty
        subst hempty
        simp [PTree.countNodes, PTree.countNodesList, PTree.nleaves,
          PTree.children]
      · obtain ⟨a, b, rfl⟩ := List.length_eq_two.mp (by exact_mod_cast of_decide_eq_true hlen2)
        rw [PTree.bifurcatingList, Bool.and_eq_true] at hrest
        obtain ⟨ha, hrest⟩ := hrest
        rw [PTree.bifurcatingList, Bool.and_eq_true] at hrest
        obtain ⟨hb, -⟩ := hrest
        have iha := ih a (PTree.size_children_lt (by simp [PTree.children])) ha
        have ihb := ih b (PTree.size_children_lt (by simp [PTree.children])) hb
        simp only [PTree.countNodes, PTree.countNodesList, PTree.nleaves,
          PTree.nleavesList, PTree.children, List.isEmpty_cons, Bool.not_false,
          if_pos] at *
        omega

/-- Unpacking validity of a list of subtrees. -/
theorem PTree.validList_mem {h : Rat} {l : List PTree} {c : PTree}
    (hv : PTree.validList h l = true) (hc : c ∈ l) :
    PTree.height c ≤ h ∧ PTree.valid c = true := by
  induction l with
  | nil => simp at hc
  | cons a as ih =>
    rw [PTree.validList, Bool.and_eq_true, Bool.and_eq_true] at hv
    rcases List.mem_cons.mp hc with rfl | hmem
    · exact ⟨of_decide_eq_true hv.1.1, hv.1.2⟩
    · exact ih hv.2 hmem

/-- Children of a valid tree are valid. -/
theorem PTree.valid_children {t c : PTree} (hv : PTree.valid t = true)
    (hc : c ∈ PTree.children t) : PTree.valid c = true := by
  cases t with
  | node i h cs =>
    rw [PTree.children] at hc
    cases cs with
    | nil => simp at hc
    | cons a as =>
      rw [PTree.valid] at hv
      simp only [List.isEmpty_cons, if_neg] at hv
      exact (PTree.validList_mem hv hc).2

/-- Every node of a valid ultrametric tree sits at nonnegative height. -/
theorem PTree.valid_height_nonneg (t : PTree) (hv : PTree.valid t = true) :
    0 ≤ PTree.height t := by
  induction t using PTree.strong_ind with
  | _ t ih =>
    cases t with
    | node i h cs =>
      cases cs with
      | nil =>
        rw [PTree.valid] at hv
        simp only [List.isEmpty_nil, if_pos] at hv
        rw [PTree.height, of_decide_eq_true hv]
      | cons a as =>
        rw [PTree.valid] at hv
        simp only [List.isEmpty_cons, if_neg] at hv
        have hmem : a ∈ a :: as := List.mem_cons_self a as
        obtain ⟨hha, hva⟩ := PTree.validList_mem hv hmem
        have h0a := ih a (PTree.size_children_lt (by simp [PTree.children])) hva
        rw [PTree.height] at *
        exact le_trans h0a hha

/-- Every node listed by the level-order walk of a frontier of valid trees is
valid. -/
theorem PTree.bfs_mem_valid :
    ∀ (fuel : Nat) (l : List PTree), (∀ x ∈ l, PTree.valid x = true) →
      ∀ n ∈ PTree.bfs fuel l, PTree.valid n = true := by
  intro fuel
  induction fuel with
  | zero => intro l _ n hn; simp [PTree.bfs] at hn
  | succ f ih =>
    intro l hl n hn
    cases l with
    | nil => simp [PTree.bfs] at hn
    | cons c cs =>
      have : n ∈ (c :: cs) ++ PTree.bfs f ((c :: cs).flatMap PTree.children) := hn
      rcases List.mem_append.mp this with hfr | hrec
      · exact hl n hfr
      · refine ih _ ?_ n hrec
        intro x hx
        obtain ⟨a, ha, hxa⟩ := List.mem_flatMap.mp hx
        exact PTree.valid_children (hl a ha) hxa

/-- Every node of the traversal of a valid tree is valid. -/
theorem PTree.traverse_valid {t : PTree} (hv : PTree.valid t = true) :
    ∀ n ∈ PTree.traverse t, PTree.valid n = true := by
  intro n hn
  exact PTree.bfs_mem_valid (PTree.size t) [t] (by simpa using hv) n hn

instance : IsTotal MassMigration (fun a b => a.time ≤ b.time) :=
  ⟨fun a b => le_total a.time b.time⟩

instance : IsTrans MassMigration (fun a b => a.time ≤ b.time) :=
  ⟨fun _ _ _ hab hbc => le_trans hab hbc⟩

/-- C2: for every valid ultrametric strictly bifurcating species tree and
every `Ne > 0`, `_get_demography` returns exactly `N - 1` merge events
(`N` the number of tips), each with nonnegative time, sorted ascending by
time. -/
theorem get_demography_spec (t : PTree) (Ne : Rat)
    (hvalid : PTree.valid t = true) (hbif : PTree.bifurcating t = true)
    (hNe : 0 < Ne) :
    (Coalseq.get_demography t Ne).length = PTree.nleaves t - 1 ∧
    (∀ e ∈ Coalseq.get_demography t Ne, 0 ≤ e.time) ∧
    List.Sorted (fun a b => a.time ≤ b.time) (Coalseq.get_demography t Ne) := by
  refine ⟨?_, ?_, ?_⟩
  · rw [Coalseq.get_demography,
      (List.perm_insertionSort (fun a b : MassMigration => a.time ≤ b.time) _).length_eq,
      List.length_map, ← List.countP_eq_length_filter, PTree.traverse_countP]
    have := PTree.internal_count t hbif
    omega
  · intro e he
    have he2 : e ∈ ((PTree.traverse t).filter
        (fun n => !(PTree.children n).isEmpty)).map (Coalseq.eventOfNode Ne) :=
      (List.perm_insertionSort _ _).mem_iff.mp he
    obtain ⟨n, hn, rfl⟩ := List.mem_map.mp he2
    have hnt : n ∈ PTree.traverse t := List.mem_of_mem_filter hn
    have h0 : 0 ≤ PTree.height n :=
      PTree.valid_height_nonneg n (PTree.traverse_valid hvalid n hnt)
    show (0:Rat) ≤ PTree.height n * 2 * Ne
    have h2 : (0:Rat) ≤ PTree.height n * 2 := by linarith
    exact mul_nonneg h2 hNe.le
  · exact List.sorted_insertionSort _ _

/-- The two-tip witness tree: leaves `0` and `1` at height `0`, root `2` at
height `1`. -/
def demoTree2 : PTree := .node 2 1 [.node 0 0 [], .node 1 0 []]

/-- C2 witness: the two-tip tree at `Ne = 1`. -/
theorem get_demography_spec_witness :
    PTree.valid demoTree2 = true ∧ PTree.bifurcating demoTree2 = true ∧
      (0:Rat) < 1 ∧
      ((Coalseq.get_demography demoTree2 1).length = PTree.nleaves demoTree2 - 1 ∧
       (∀ e ∈ Coalseq.get_demography demoTree2 1, 0 ≤ e.time) ∧
       List.Sorted (fun a b => a.time ≤ b.time) (Coalseq.get_demography demoTree2 1)) :=
  ⟨by decide, by decide, by norm_num,
    get_demography_spec demoTree2 1 (by decide) (by decide) (by norm_num)⟩

/-- A three-tip star tree: root `3` at height `1` with leaf children `0`, `1`,
`2` at height `0` — the multifurcating input of claim C6. -/
def starTree3 : PTree :=
  .node 3 1 [.node 0 0 [], .node 1 0 [], .node 2 0 []]

/-- C6 (behaviour at the failing input): on the three-child star tree with
`Ne = 1000` the builder emits exactly one merge event, `(2000, 2, 0)` — only
the maximal child `2` is merged into the minimal child `0`; child `1` is never
merged anywhere, and in particular the claimed `k - 1 = 2` events (sources `1`
and `2` in increasing order) are not produced. -/
theorem get_demography_star3 :
    Coalseq.get_demography starTree3 1000 =
      [{ time := 2000, source := 2, dest := 0 }] ∧
      (Coalseq.get_demography starTree3 1000).length ≠ 2 := by
  have h1 : Coalseq.get_demography starTree3 1000 =
      [Coalseq.eventOfNode 1000 starTree3] := rfl
  have h2 : Coalseq.eventOfNode 1000 starTree3 =
      { time := 2000, source := 2, dest := 0 } := by
    simp only [Coalseq.eventOfNode, MassMigration.mk.injEq]
    refine ⟨by norm_num [starTree3, PTree.height], by decide, by decide⟩
  rw [h1, h2]
  exact ⟨rfl, by simp⟩

/-! ## Genealogy serializer: `Coalseq.write_trees` -/

/-- Conversion `np.int64(x)` applied to a Python float: truncation toward
zero.  Interval lengths are modelled as rationals; on the nonnegative lengths
produced by the simulator this is the floor. -/
def npInt64 (x : Rat) : Int := if 0 ≤ x then ⌊x⌋ else -⌊-x⌋

/-- Embedding of the length bookkeeping of `Coalseq.write_trees`: for every
local tree of the simulated interval sequence, in genome order, the source
appends `np.int64(tree.get_length())` to `lengths` (the `get_length()` values
are floats, modelled as rationals) and persists the array to the
`ms_genetree_lengths.hdf5` table; reloading the persisted table returns the
same array, so the persisted length table is modelled by the resulting
list. -/
def Coalseq.write_trees_lengths (intervalLengths : List Rat) : List Int :=
  intervalLengths.map npInt64

/-- C7 counterexample: a simulated interval sequence of two intervals of
length `3/2` each (total simulated length `3`) round-trips to the persisted
lengths `[1, 1]`, whose sum `2` differs from the simulated total: `np.int64`
truncates each fractional interval length. -/
theorem write_trees_roundtrip_counterexample :
    ([(3:Rat)/2, 3/2].sum = 3) ∧
      ¬ ((((Coalseq.write_trees_lengths [(3:Rat)/2, 3/2]).sum : Int) : Rat) =
          [(3:Rat)/2, 3/2].sum) := by
  have hfloor : ⌊(3:Rat)/2⌋ = 1 := by
    rw [Int.floor_eq_iff]
    norm_num
  have hnp : npInt64 ((3:Rat)/2) = 1 := by
    rw [npInt64, if_pos (by norm_num), hfloor]
  constructor
  · norm_num
  · simp only [Coalseq.write_trees_lengths, List.map_cons, List.map_nil,
      List.sum_cons, List.sum_nil, hnp]
    norm_num

/-- C7 amended: whenever every simulated interval length is an integer (as the
data model's length-in-sites reading asserts), the persisted lengths reloaded
from the table sum exactly to the simulated total length; for fractional
lengths each entry is truncated and the persisted sum can fall short. -/
theorem write_trees_roundtrip (ls : List Rat) (hint : ∀ l ∈ ls, l.den = 1) :
    (((Coalseq.write_trees_lengths ls).sum : Int) : Rat) = ls.sum := by
  induction ls with
  | nil => simp [Coalseq.write_trees_lengths]
  | cons a as ih =>
    have ha : ((a.num : Int) : Rat) = a :=
      (Rat.den_eq_one_iff a).mp (hint a (List.mem_cons_self a as))
    have hnp : npInt64 a = a.num := by
      rw [npInt64]
      split_ifs with h0
      · conv_lhs => rw [← ha]
        exact Int.floor_intCast a.num
      · rw [show -a = ((-a.num : Int) : Rat) by rw [Int.cast_neg, ha],
          Int.floor_intCast]
        ring
    have ihs := ih (fun l hl => hint l (List.mem_cons_of_mem a hl))
    simp only [Coalseq.write_trees_lengths, List.map_cons, List.sum_cons,
      Int.cast_add, hnp, ha] at *
    rw [ihs]

/-- C7 amended witness: integer interval lengths `[2, 3]`. -/
theorem write_trees_roundtrip_witness :
    (∀ l ∈ [(2:Rat), 3], l.den = 1) ∧
      (((Coalseq.write_trees_lengths [(2:Rat), 3]).sum : Int) : Rat) =
        [(2:Rat), 3].sum :=
  ⟨by decide, write_trees_roundtrip [2, 3] (by decide)⟩

/-! ## Alignment assembler: `Coalseq.build_seqs` -/

/-- Code-point lexicographic comparison of strings (as lists of characters):
the order `np.sort` applies to the array of fragment lines, which is also
Python's own `str` ordering. -/
def lexLe : List Char → List Char → Bool
  | [], _ => true
  | _ :: _, [] => false
  | a :: as, b :: bs =>
    if a < b then true else if b < a then false else lexLe as bs

/-- A strictly smaller head decides the comparison, whatever follows. -/
theorem lexLe_cons_of_lt {a b : Char} (h : a < b) (u v : List Char) :
    lexLe (a :: u) (b :: v) = true := by rw [lexLe, if_pos h]

/-- `lexLe` is total. -/
theorem lexLe_total : ∀ a b : List Char, lexLe a b = true ∨ lexLe b a = true := by
  intro a
  induction a with
  | nil => intro b; left; rfl
  | cons x xs ih =>
    intro b
    cases b with
    | nil => right; rfl
    | cons y ys =>
      rw [lexLe, lexLe]
      rcases lt_trichotomy x y with h | h | h
      · left; rw [if_pos h]
      · subst h
        simp only [lt_self_iff_false, if_false]
        exact ih ys
      · right; rw [if_pos h]

/-- `lexLe` is transitive. -/
theorem lexLe_trans : ∀ a b c : List Char,
    lexLe a b = true → lexLe b c = true → lexLe a c = true := by
  intro a
  induction a with
  | nil => intro b c _ _; rfl
  | cons x xs ih =>
    intro b c hab hbc
    cases b with
    | nil => rw [lexLe] at hab; exact absurd hab (by simp)
    | cons y ys =>
      cases c with
      | nil => rw [lexLe] at hbc; exact absurd hbc (by simp)
      | cons z zs =>
        rw [lexLe] at hab hbc ⊢
        rcases lt_trichotomy x y with hxy | hxy | hxy
        · rcases lt_trichotomy y z with hyz | hyz | hyz
          · rw [if_pos (lt_trans hxy hyz)]
          · subst hyz; rw [if_pos hxy]
          · rw [if_neg (lt_asymm hyz), if_pos hyz] at hbc
            exact absurd hbc (by simp)
        · subst hxy
          rcases lt_trichotomy x z with hxz | hxz | hxz
          · rw [if_pos hxz]
          · subst hxz
            simp only [lt_self_iff_false, if_false] at hab hbc ⊢
            exact ih ys zs hab hbc
          · rw [if_neg (lt_asymm hxz), if_pos hxz] at hbc
            exact absurd hbc (by simp)
        · rw [if_neg (lt_asymm hxy), if_pos hxy] at hab
          exact absurd hab (by simp)

/-- `lexLe` is antisymmetric. -/
theorem lexLe_antisymm : ∀ a b : List Char,
    lexLe a b = true → lexLe b a = true → a = b := by
  intro a
  induction a with
  | nil =>
    intro b _ hba
    cases b with
    | nil => rfl
    | cons y ys => rw [lexLe] at hba; exact absurd hba (by simp)
  | cons x xs ih =>
    intro b hab hba
    cases b with
    | nil => rw [lexLe] at hab; exact absurd hab (by simp)
    | cons y ys =>
      rw [lexLe] at hab hba
      rcases lt_trichotomy x y with h | h | h
      · rw [if_neg (lt_asymm h), if_pos h] at hba; exact absurd hba (by simp)
      · subst h
        simp only [lt_self_iff_false, if_false] at hab hba
        rw [ih ys hab hba]
      · rw [if_neg (lt_asymm h), if_pos h] at hab; exact absurd hab (by simp)

instance : IsTotal (List Char) (fun a b => lexLe a b = true) := ⟨lexLe_total⟩

instance : IsTrans (List Char) (fun a b => lexLe a b = true) := ⟨lexLe_trans⟩

instance : IsAntisymm (List Char) (fun a b => lexLe a b = true) := ⟨lexLe_antisymm⟩

/-- Row ordering of `build_seqs` for one fragment file: the file's lines
(`f.read().split('\n')[:-1]`) are sorted with `np.sort` in code-point order —
among equal keys every sorted rearrangement of a list is the same list, so the
stable `insertionSort` is extensionally the sorting routine itself — the first
sorted line is the header (`myseq[0]`, whence `lenseq` is read) and is dropped
(`myseq = myseq[1:]`), and row `idx` of the alignment array receives the
characters `indiv_seq[10:]` of the remaining row `idx`. -/
def Coalseq.build_seqs_rows (lines : List (List Char)) : List (List Char) :=
  ((List.insertionSort (fun a b => lexLe a b = true) lines).drop 1).map
    (List.drop 10)

/-- A seq-gen taxon label: the 1-based tip number in decimal, padded with
spaces to the fixed width of 10 characters (fragment text format of the
external interface). -/
def padLabel (j : Nat) : List Char :=
  (Nat.repr j).toList ++ List.replicate (10 - (Nat.repr j).length) ' '

/-- Modelled from the spec: one fragment file as produced by the external
sequence-evolution tool — a header line beginning with a space (a space, the
tip count, a space and the fragment length), then one row per tip
`j = 1 .. ntips`, each the 10-character label followed by that tip's sequence
`seqOf j`.  The tool's on-disk row order may vary, so theorems quantify over
permutations of these lines. -/
def fragmentLines (ntips : Nat) (header : List Char) (seqOf : Nat → List Char) :
    List (List Char) :=
  header :: (List.range ntips).map (fun i => padLabel (i + 1) ++ seqOf (i + 1))

/-- Single-digit labels are one digit then nine spaces. -/
theorem padLabel_small (k : Nat) (h1 : 1 ≤ k) (h9 : k ≤ 9) :
    padLabel k = Nat.digitChar k :: List.replicate 9 ' ' := by
  interval_cases k <;> decide

/-- Single-digit labels fill the fixed width of 10. -/
theorem padLabel_length (k : Nat) (h1 : 1 ≤ k) (h9 : k ≤ 9) :
    (padLabel k).length = 10 := by
  interval_cases k <;> decide

/-- A space precedes every digit in code-point order. -/
theorem space_lt_digitChar (k : Nat) (h1 : 1 ≤ k) (h9 : k ≤ 9) :
    ' ' < Nat.digitChar k := by
  interval_cases k <;> decide

/-- Digits compare like the numbers they denote. -/
theorem digitChar_lt (a b : Nat) (h1 : 1 ≤ a) (hab : a < b) (h9 : b ≤ 9) :
    Nat.digitChar a < Nat.digitChar b := by
  have h8 : a ≤ 8 := by omega
  interval_cases a <;> interval_cases b <;> first | omega | decide

/-- With at most nine tips, a fragment's lines are already in sorted order:
the header (leading space) first, then the rows by their single-digit
labels. -/
theorem fragmentLines_sorted (ntips : Nat) (hn : ntips ≤ 9)
    (seqOf : Nat → List Char) (hrest : List Char) :
    List.Sorted (fun a b => lexLe a b = true)
      (fragmentLines ntips (' ' :: hrest) seqOf) := by
  rw [fragmentLines, List.sorted_cons]
  constructor
  · intro row hrow
    obtain ⟨i, hi, rfl⟩ := List.mem_map.mp hrow
    have hi9 : i + 1 ≤ 9 := by
      have := List.mem_range.mp hi; omega
    rw [padLabel_small (i + 1) (by omega) hi9, List.cons_append]
    exact lexLe_cons_of_lt (space_lt_digitChar (i + 1) (by omega) hi9) _ _
  · show List.Pairwise _ _
    rw [List.pairwise_map]
    refine List.Pairwise.imp_of_mem ?_ (List.pairwise_lt_range ntips)
    intro a b ha hb hab
    have ha9 : a + 1 ≤ 9 := by
      have := List.mem_range.mp ha; omega
    have hb9 : b + 1 ≤ 9 := by
      have := List.mem_range.mp hb; omega
    rw [padLabel_small (a + 1) (by omega) ha9,
      padLabel_small (b + 1) (by omega) hb9, List.cons_append,
      List.cons_append]
    exact lexLe_cons_of_lt (digitChar_lt (a + 1) (b + 1) (by omega)
      (by omega) hb9) _ _

/-- C8 amended: for at most nine tips the claim holds — `build_seqs` orders
the rows of every fragment (whatever their on-disk order) by their taxon
label, consistently across fragments, and row `i` receives tip `i`'s
sequence.  (For ten or more tips the sort is by the label's code points, and
the decimal labels no longer order numerically.) -/
theorem build_seqs_rows_tip_order (ntips : Nat) (hn : ntips ≤ 9)
    (seqOf : Nat → List Char) (hrest : List Char) (lines : List (List Char))
    (hperm : lines.Perm (fragmentLines ntips (' ' :: hrest) seqOf)) :
    Coalseq.build_seqs_rows lines =
      (List.range ntips).map (fun i => seqOf (i + 1)) := by
  have heq : List.insertionSort (fun a b => lexLe a b = true) lines =
      fragmentLines ntips (' ' :: hrest) seqOf :=
    List.eq_of_perm_of_sorted
      ((List.perm_insertionSort _ lines).trans hperm)
      (List.sorted_insertionSort _ lines)
      (fragmentLines_sorted ntips hn seqOf hrest)
  rw [Coalseq.build_seqs_rows, heq, fragmentLines, List.drop_one,
    List.tail_cons, List.map_map]
  apply List.map_congr_left
  intro i hi
  have hi9 : i + 1 ≤ 9 := by
    have := List.mem_range.mp hi; omega
  show List.drop 10 (padLabel (i + 1) ++ seqOf (i + 1)) = seqOf (i + 1)
  rw [← padLabel_length (i + 1) (by omega) hi9, List.drop_left]

/-- C8 counterexample: with ten tips the sorted row order is `1, 10, 2, ...,
9` — row `1` of the alignment receives tip `10`'s sequence, not tip `2`'s —
so row `i` does not correspond to tip index `i`.  Tip `j`'s sequence is taken
to be the decimal digits of `j` to make the mismatch visible. -/
theorem build_seqs_rows_counterexample :
    Coalseq.build_seqs_rows
        (fragmentLines 10 (' ' :: []) (fun j => (Nat.repr j).toList)) ≠
      (List.range 10).map (fun i => (Nat.repr (i + 1)).toList) ∧
    (Coalseq.build_seqs_rows
        (fragmentLines 10 (' ' :: []) (fun j => (Nat.repr j).toList))).get? 1 =
      some ((Nat.repr 10).toList) := by decide

/-- C8 amended witness: three tips, each tip's sequence its own decimal
digits, fragment lines in file order. -/
theorem build_seqs_rows_tip_order_witness :
    ((3:Nat) ≤ 9) ∧
      Coalseq.build_seqs_rows
          (fragmentLines 3 (' ' :: []) (fun j => (Nat.repr j).toList)) =
        (List.range 3).map (fun i => (Nat.repr (i + 1)).toList) :=
  ⟨by decide,
    build_seqs_rows_tip_order 3 (by decide) (fun j => (Nat.repr j).toList) []
      (fragmentLines 3 (' ' :: []) (fun j => (Nat.repr j).toList))
      (List.Perm.refl _)⟩

/-! ## Fragment header parsing in `build_seqs` -/

/-- Python `str.split(' ')`: cut at every single space, keeping empty
pieces (so `" 4 1000"` splits into an empty piece, `"4"` and `"1000"`). -/
def pySplitSpace : List Char → List (List Char)
  | [] => [[]]
  | c :: rest =>
    if c = ' ' then [] :: pySplitSpace rest
    else
      match pySplitSpace rest with
      | [] => [[c]]
      | t :: ts => (c :: t) :: ts

/-- Decimal digits to a number; `none` unless the string is one or more
digits. -/
def pyDigits? (s : List Char) : Option Nat :=
  if s.isEmpty then none
  else if s.all Char.isDigit then
    some (s.foldl (fun acc c => 10 * acc + (c.toNat - Char.toNat '0')) 0)
  else none

/-- Python `int(...)` applied to a string: surrounding spaces stripped, an
optional sign, then at least one decimal digit (the grammar of the header
tokens at hand); `none` models the `ValueError` raised otherwise. -/
def pyInt? (s : List Char) : Option Int :=
  let t := ((s.dropWhile (· = ' ')).reverse.dropWhile (· = ' ')).reverse
  match t with
  | '-' :: rest => (pyDigits? rest).map (fun n => -(n : Int))
  | '+' :: rest => (pyDigits? rest).map (fun n => (n : Int))
  | _ => (pyDigits? t).map (fun n => (n : Int))

/-- The Python exceptions that the header-parsing step can raise. -/
inductive PyExc where
  | valueError
  | typeError
  | indexError
deriving DecidableEq

/-- Outcome of a Python statement: a value, or a raised exception. -/
inductive PyResult where
  | ok (n : Int)
  | error (e : PyExc)
deriving DecidableEq

/-- The header length parse in the first loop of `build_seqs`:
`int(tst.split(' ')[2])` where `tst` is the fragment's first line.  A missing
third token raises `IndexError`, a non-integer token `ValueError`. -/
def headerSeqLen (tst : List Char) : PyResult :=
  match (pySplitSpace tst).get? 2 with
  | none => .error .indexError
  | some tok =>
    match pyInt? tok with
    | none => .error .valueError
    | some n => .ok n

/-- One step of the `seq_len` accumulation in `build_seqs`, `try`/`except`
included: on success `seq_len += int(tst.split(' ')[2])`; on any failure the
bare `except` catches it and evaluates
`print('there was an error: ' + tst.split(' '))` — which itself raises
`TypeError`, since a `str` cannot be concatenated with a `list` — so the step
terminates with `TypeError` rather than any fragment-specific error. -/
def Coalseq.build_seqs_len_step (acc : Int) (tst : List Char) :
    PyResult :=
  match headerSeqLen tst with
  | .ok n => .ok (acc + n)
  | .error _ => .error .typeError

/-- C9 (behaviour at the failing input): a well-formed header accumulates its
parsed length, but on the malformed header `" 4 abc"` the parse error is
caught and the recovery path itself fails with `TypeError` — there is no
`MalformedFragmentError` anywhere in the source and no report of the offending
file. -/
theorem build_seqs_len_step_malformed :
    Coalseq.build_seqs_len_step 0 (" 4 1000".toList) = .ok 1000 ∧
      Coalseq.build_seqs_len_step 0 (" 4 abc".toList) = .error .typeError := by
  decide
